import Mathlib

/-!
# fourierGraph: the analysis core `ImageDFT` of `cvdft.h`

A shallow embedding of the class `FOURIERGRAPH::ImageDFT` and proofs about it.

Conventions of the embedding.

* C++ `int` values are Lean integers, and natural numbers where the C++ value is
  never negative (the dimensions of a matrix, the loop variables and centres of
  `doDFT` and `spectrum`).  Every intermediate `int` of the embedded functions is
  bounded by `src.cols + 1` or `src.rows`, so on the inputs where the C++ text
  has defined behaviour (`src.cols + 1` representable in 32 bits) no operation
  wraps.  The one conversion `int → unsigned int`, at the call of `__lzcnt`, is
  written as an explicit reduction modulo `2 ^ 32`.
* C++ `float` and `double` values are rational numbers and the float operations
  `+`, `*`, `/`, `<`, `>` are the exact ones.  `FLT_MAX` and `FLT_MIN` are the
  exact values of the macros of `<cfloat>`.
* `cv::Mat` is a pair of dimensions with an accessor function; a region of
  interest is a matrix reading through to its parent.
* The library calls of OpenCV that the class composes (`cv::dft`, `cv::cvtColor`,
  `cv::split`, `cv::minMaxLoc`, ...) are fields of a record `Env`.
-/

namespace FOURIERGRAPH

/-! ## Matrices and rectangles -/

/-- A single channel `cv::Mat`: `rows`, `cols` and the accessor `at_ y x` for `at(y, x)`. -/
structure Mat where
  rows : Nat
  cols : Nat
  at_ : Nat → Nat → ℚ

/-- A `cv::Rect(x, y, width, height)`. -/
structure Rect where
  x : Int
  y : Int
  width : Int
  height : Int
deriving DecidableEq

/-- The view `cv::Mat(src, rect)`: a matrix of the size of `rect` reading through
to `src`. -/
def Mat.roi (src : Mat) (r : Rect) : Mat where
  rows := r.height.toNat
  cols := r.width.toNat
  at_ := fun y x => src.at_ (r.y.toNat + y) (r.x.toNat + x)

/-! ## The mip strip: `getMipMAX` and `getMipROI` -/

/-- Scan of the bits `k-1, ..., 0` of `v` from the top: the number of zero bits
met before the first set bit. -/
def lzcntAux (v : Nat) : Nat → Nat
  | 0 => 0
  | k + 1 => if v / 2 ^ k % 2 = 1 then 0 else 1 + lzcntAux v k

/-- Modelled from the spec: the compiler intrinsic `__lzcnt(unsigned int)`, which
`cvdft.h` calls and does not define: the number of leading zero bits of a 32 bit
unsigned integer. -/
def lzcnt (v : Nat) : Nat := lzcntAux (v % 2 ^ 32) 32

/-- Conversion of an `int` to `unsigned int`. -/
def toUnsigned (v : Int) : Nat := (v % 2 ^ 32).toNat

/-- `ImageDFT::getMipMAX`, as a function of `src.cols`:
`return __lzcnt( (src.cols+1)/2 );` -/
def getMipMAX (cols : Int) : Int := (lzcnt (toUnsigned ((cols + 1).tdiv 2)) : Int)

/-- The body of the loop of `getMipROI`, run `n` times on `(x, w, h)`:
`x += w; w /= 2; h /= 2;` -/
def mipLoop : Nat → Int × Int × Int → Int × Int × Int
  | 0, s => s
  | n + 1, (x, w, h) => mipLoop n (x + w, w.tdiv 2, h.tdiv 2)

/-- The rectangle that `ImageDFT::getMipROI` builds for a source of `cols` by
`rows` and the level `miplv`: `w = (cols+1)/2`, `h = rows`, `x = 0`, then the
loop `for(int i=0;i<miplv;i++)`, then `cv::Rect( x, 0, w, h )`. -/
def mipRect (cols rows miplv : Int) : Rect :=
  let s := mipLoop miplv.toNat (0, (cols + 1).tdiv 2, rows)
  { x := s.1, y := 0, width := s.2.1, height := s.2.2 }

/-- `ImageDFT::getMipROI`: `return cv::Mat( src, cv::Rect( x, 0, w, h ) );` -/
def getMipROI (src : Mat) (miplv : Int) : Mat :=
  src.roi (mipRect src.cols src.rows miplv)

/-- The number of times `n` can be halved by integer division before it becomes
zero (the count named by the specification of `maxLevel`). -/
def halvings : Nat → Nat
  | 0 => 0
  | n + 1 => 1 + halvings ((n + 1) / 2)
  decreasing_by omega

/-! ## The magnitude spectrum: `doDFT` -/

/-- The copy `a.copyTo(b)` into a view `b = cv::Mat(dest, r)` of the size of `a`:
the matrix `dest` after the copy. -/
def Mat.copyInto (dest : Mat) (r : Rect) (a : Mat) : Mat where
  rows := dest.rows
  cols := dest.cols
  at_ := fun y x =>
    if r.y.toNat ≤ y ∧ y < r.y.toNat + r.height.toNat ∧
        r.x.toNat ≤ x ∧ x < r.x.toNat + r.width.toNat
    then a.at_ (y - r.y.toNat) (x - r.x.toNat)
    else dest.at_ y x

/-- One pass of the body of the re-centering loop of `doDFT` (lines 97-101), for
the loop variable `i`:
`qs( dest, Rect(i^cx,0,cx,cy) ); qd( dest, Rect(i,cy,cx,cy) );`
`qs.copyTo(tmp); qd.copyTo(qs); tmp.copyTo(qd);` -/
def swapQuadrant (dest : Mat) (cx cy i : Nat) : Mat :=
  let qs : Rect := { x := ((i ^^^ cx : Nat) : Int), y := 0, width := cx, height := cy }
  let qd : Rect := { x := i, y := cy, width := cx, height := cy }
  let tmp := dest.roi qs
  let dest1 := dest.copyInto qs (dest.roi qd)
  dest1.copyInto qd tmp

/-- The loop `for(int i=0; i<=cx; i+=cx)` of `doDFT` from the value `i` of the
loop variable on.  Every test of the loop condition uses one unit of `fuel`;
`none` when the fuel is used up before the loop is left. -/
def recenterLoop : Nat → Nat → Nat → Nat → Mat → Option Mat
  | 0, _, _, _, _ => none
  | fuel + 1, cx, cy, i, dest =>
    if i ≤ cx then recenterLoop fuel cx cy (i + cx) (swapQuadrant dest cx cy i)
    else some dest

/-- The re-centering block of `doDFT` (lines 92-103):
`cx = dest.cols/2; cy = dest.rows/2;` and the loop. -/
def recenter (fuel : Nat) (dest : Mat) : Option Mat :=
  recenterLoop fuel (dest.cols / 2) (dest.rows / 2) 0 dest

/-- The raw memory behind an `unsigned char *`. -/
abbrev Buffer := List Nat

/-- A multi channel `cv::Mat`, as the list of its channel planes. -/
abbrev Planes := List Mat

/-- The OpenCV calls that `ImageDFT` composes. -/
structure Env where
  /-- The call `cv::Mat( height, width, CV_8UC4, image ).clone()` on a non-null
  `image`, arguments in the order `image height width`; `none` when the data
  pointer of the result is null. -/
  clone : Buffer → Int → Int → Option Planes
  /-- The call `cv::cvtColor( src, src, CV_BGRA2GRAY )`. -/
  cvtColor : Planes → Planes
  /-- Lines 66-90 of `doDFT`: `copyMakeBorder`, `merge`, `cv::dft` with
  `DFT_SCALE`, `split` and `cv::magnitude`; the magnitude matrix `dest`, with the
  zero frequency at `[0][0]`. -/
  magnitude : Mat → Mat
  /-- The maximum that `minMaxLoc( dst, &min, &max )` stores in `max`. -/
  maxLoc : Mat → ℚ

/-- `ImageDFT::doDFT`: the magnitude matrix, re-centred; `none` when the
re-centering loop is not left within `fuel` tests. -/
def doDFT (env : Env) (fuel : Nat) (src : Mat) : Option Mat :=
  recenter fuel (env.magnitude src)

/-! ## The radial histogram: `spectrum` -/

/-- The struct `BinEntry`. -/
structure BinEntry where
  value_ : ℚ
  weight_ : ℚ
  min_ : ℚ
  max_ : ℚ
deriving DecidableEq

/-- The type `BinList`, a `std::vector< BinEntry >`. -/
abbrev BinList := List BinEntry

/-- The type `BinArray`, a `std::vector< BinList >`. -/
abbrev BinArray := List BinList

/-- The macro `FLT_MAX`: the largest finite `float`, `(2 - 2^-23) * 2^127`. -/
def FLT_MAX : ℚ := 340282346638528859811704183484516925440

/-- The macro `FLT_MIN`: the smallest positive normalized `float`, `2^-126`. -/
def FLT_MIN : ℚ := 1 / 2 ^ 126

/-- `ImageDFT::minf`: `return (a>b)?b:a;` -/
def minf (a b : ℚ) : ℚ := if a > b then b else a

/-- `ImageDFT::maxf`: `return (a<b)?b:a;` -/
def maxf (a b : ℚ) : ℚ := if a < b then b else a

/-- The smaller dimension, `(src_cols < src_rows) ? src_cols : src_rows`. -/
def minDim (cols rows : Nat) : Nat := if cols < rows then cols else rows

/-- The bucket length of `spectrum`:
`l = ((src_cols < src_rows) ? src_cols : src_rows)/2`. -/
def binCount (cols rows : Nat) : Nat := minDim cols rows / 2

/-- Four times the squared distance of the pixel `(x, y)` from the centre
`(cx, cy) = (cols / 2.f, rows / 2.f)`: `(2x - cols)^2 + (2y - rows)^2`. -/
def radiusSq (cols rows x y : Nat) : Nat :=
  ((2 * (x : Int) - cols) ^ 2 + (2 * (y : Int) - rows) ^ 2).toNat

/-- The value of `bin_index = (int)( l * r )` of `spectrum` at the pixel `(x, y)`,
with `r = abs_norm( (float)x - cx, (float)y - cy, cl )`, that is
`sqrtf( dx*dx + dy*dy ) / cl`, over exact arithmetic.  With `d = radiusSq`, which
is `4 (dx^2 + dy^2)`, and `m = minDim`, which is `2 cl`, the real number `l * r`
is `sqrt (l^2 d) / m`, and its integer part is `Nat.sqrt (l * l * d) / m`
(theorem `binIndex_eq_floor`). -/
def binIndex (cols rows x y : Nat) : Nat :=
  Nat.sqrt (binCount cols rows * binCount cols rows * radiusSq cols rows x y)
    / minDim cols rows

/-- The update of one bucket by a pixel of scaled magnitude `value`
(lines 150-153): `value_ += value; weight_ += 1.f;`
`min_ = minf( min_, value ); max_ = maxf( max_, value );` -/
def addPixel (value : ℚ) (b : BinEntry) : BinEntry where
  value_ := b.value_ + value
  weight_ := b.weight_ + 1
  min_ := minf b.min_ value
  max_ := maxf b.max_ value

/-- The accumulation of one pixel into the bucket `bin_index` (lines 147-153):
nothing when `bin_index >= bin.size()`, else the update of `bin[bin_index]`. -/
def accumulate (value : ℚ) : BinList → Nat → BinList
  | [], _ => []
  | b :: bs, 0 => addPixel value b :: bs
  | b :: bs, i + 1 => b :: accumulate value bs i

/-- The bucket that `spectrum` writes into every slot before the scan
(lines 134-138). -/
def emptyBin : BinEntry := { value_ := 0, weight_ := 0, min_ := FLT_MAX, max_ := FLT_MIN }

/-- `ImageDFT::spectrum`: the list `bin` after the call. -/
def spectrum (src : Mat) (scale : ℚ) : BinList :=
  (List.range src.rows).foldl (fun bin y =>
    (List.range src.cols).foldl (fun bin x =>
      accumulate (src.at_ y x * scale) bin (binIndex src.cols src.rows x y)) bin)
    (List.replicate (binCount src.cols src.rows) emptyBin)

/-! ## The orchestrator: `init` and `analyze` -/

/-- The data members of `ImageDFT`. -/
structure ImageDFT where
  spectrum_ : BinArray
  is_rgb_ : Bool
  is_mipmap_ : Bool
  mipmap_level_ : Int
  color_channels_ : Int

/-- `ImageDFT::init`. -/
def ImageDFT.init (_self : ImageDFT) (is_rgb is_mipmap : Bool) : ImageDFT where
  spectrum_ := []
  is_rgb_ := is_rgb
  is_mipmap_ := is_mipmap
  mipmap_level_ := 0
  color_channels_ := 0

/-- The array `rgb` after `cv::split( src, rgb )`: the plane `ch` of `src`, a
default constructed (empty) matrix where `src` has no such plane. -/
def splitPlanes (src : Planes) (ch : Nat) : Mat :=
  src.getD ch { rows := 0, cols := 0, at_ := fun _ _ => 0 }

/-- The array `rgb` of `analyze` (lines 168-175) for the cloned image `src`:
`if( !is_rgb ) cv::cvtColor( src, src, CV_BGRA2GRAY );` and then
`cv::split( src, rgb );` -/
def analyzeChannels (env : Env) (src : Planes) (is_rgb : Bool) : Nat → Mat :=
  splitPlanes (if !is_rgb then env.cvtColor src else src)

/-- The body of the inner loop of `analyze` (lines 188-202) for the level `lv`
and the channel `ch`: the list `bin` that is pushed. -/
def analyzeOne (env : Env) (fuel : Nat) (rgb : Nat → Mat) (is_mipmap : Bool)
    (lv ch : Nat) : Option BinList :=
  let roi := if is_mipmap then getMipROI (rgb ch) lv else rgb ch
  match doDFT env fuel roi with
  | none => none
  | some dst => some (spectrum dst (100000 / env.maxLoc dst))

/-- The loop `for(int ch = 0; ch < color_channels_; ch ++ )` of `analyze`. -/
def channelLoop (env : Env) (fuel : Nat) (rgb : Nat → Mat) (is_mipmap : Bool)
    (color_channels lv : Nat) (spec : BinArray) : Option BinArray :=
  (List.range color_channels).foldlM
    (fun spec ch => (analyzeOne env fuel rgb is_mipmap lv ch).map (fun bin => spec ++ [bin]))
    spec

/-- The loop `for(int lv = 0; lv < mipmap_level_; lv ++ )` of `analyze`. -/
def levelLoop (env : Env) (fuel : Nat) (rgb : Nat → Mat) (is_mipmap : Bool)
    (mipmap_level color_channels : Nat) (spec : BinArray) : Option BinArray :=
  (List.range mipmap_level).foldlM
    (fun spec lv => channelLoop env fuel rgb is_mipmap color_channels lv spec)
    spec

/-- `ImageDFT::analyze`: the returned status and the object after the call;
`none` when a call of `doDFT` does not return within `fuel`.  The argument
`image` is `none` for a null pointer: the matrix built on it has a null data
pointer and so has its clone `src`, and `if( !src.data ) return 1;` is taken. -/
def analyze (env : Env) (fuel : Nat) (self : ImageDFT) (image : Option Buffer)
    (width height : Int) (is_rgb is_mipmap : Bool) : Option (Int × ImageDFT) :=
  match image.bind (fun buf => env.clone buf height width) with
  | none => some (1, self)
  | some src0 =>
    let self1 := self.init is_rgb is_mipmap
    let rgb := analyzeChannels env src0 is_rgb
    let maxlv : Int := if is_mipmap then getMipMAX (rgb 0).cols - 2 else 1
    let color_channels : Int := if is_rgb then 3 else 1
    match levelLoop env fuel rgb is_mipmap maxlv.toNat color_channels.toNat
        self1.spectrum_ with
    | none => none
    | some spec =>
      some (0, { self1 with
                  spectrum_ := spec, mipmap_level_ := maxlv,
                  color_channels_ := color_channels })

/-! ## Sample inputs -/

/-- The `n` by `n` re-centred magnitude matrix of a uniform image: the entry `dc`
at `[n/2][n/2]` and zero elsewhere. -/
def dcImage (n : Nat) (dc : ℚ) : Mat where
  rows := n
  cols := n
  at_ := fun y x => if y = n / 2 ∧ x = n / 2 then dc else 0

/-- An environment whose `magnitude` is the identity and whose `maxLoc` is `1`. -/
def idEnv (planes : Planes) : Env where
  clone := fun _ _ _ => some planes
  cvtColor := fun p => p
  magnitude := fun m => m
  maxLoc := fun _ => 1

/-- A sample matrix with `at_ y x = 10 y + x`. -/
def rampImage (rows cols : Nat) : Mat where
  rows := rows
  cols := cols
  at_ := fun y x => 10 * y + x

/-- Zero cannot be halved. -/
theorem halvings_zero : halvings 0 = 0 := by simp [halvings]

/-- A positive number is halved once more than its half. -/
theorem halvings_pos (n : Nat) (h : 0 < n) : halvings n = 1 + halvings (n / 2) := by
  cases n with
  | zero => omega
  | succ n => rw [halvings]

/-- A number needs at most `k` halvings exactly when it is below `2 ^ k`: `halvings` is
the bit length. -/
theorem halvings_le_iff (k : Nat) : ∀ n : Nat, halvings n ≤ k ↔ n < 2 ^ k := by
  induction k with
  | zero =>
    intro n
    rcases Nat.eq_zero_or_pos n with h | h
    · subst h; simp [halvings_zero]
    · rw [halvings_pos n h]; constructor
      · intro h'; omega
      · intro h'; simp at h'; omega
  | succ k ih =>
    intro n
    rcases Nat.eq_zero_or_pos n with h | h
    · subst h; simp [halvings_zero]
    · rw [halvings_pos n h, pow_succ]
      have := ih (n / 2)
      constructor
      · intro h'
        have : n / 2 < 2 ^ k := this.mp (by omega)
        omega
      · intro h'
        have : halvings (n / 2) ≤ k := this.mpr (by omega)
        omega

/-- The count `halvings` is monotone. -/
theorem halvings_mono {a b : Nat} (h : a ≤ b) : halvings a ≤ halvings b := by
  have := (halvings_le_iff (halvings b) b).mp le_rfl
  exact (halvings_le_iff (halvings b) a).mpr (by omega)

/-- Below `2 ^ k`, the leading zeros among `k` bits and the bit length add up to `k`. -/
theorem lzcntAux_add_halvings (k : Nat) : ∀ v : Nat, v < 2 ^ k → lzcntAux v k + halvings v = k := by
  induction k with
  | zero => intro v hv; simp at hv; subst hv; simp [lzcntAux, halvings_zero]
  | succ k ih =>
    intro v hv
    rw [lzcntAux]
    by_cases hb : v < 2 ^ k
    · have h0 : v / 2 ^ k = 0 := Nat.div_eq_of_lt hb
      simp [h0]
      have := ih v hb
      omega
    · have h1 : v / 2 ^ k = 1 := by
        rw [pow_succ] at hv
        apply Nat.div_eq_of_lt_le <;> omega
      simp [h1]
      have a := (halvings_le_iff (k + 1) v).mpr hv
      have b := (halvings_le_iff k v).not.mpr hb
      omega

/-- For a 32 bit value, `lzcnt v` is `32` minus the number of halvings of `v`. -/
theorem lzcnt_add_halvings (v : Nat) (hv : v < 2 ^ 32) : lzcnt v + halvings v = 32 := by
  unfold lzcnt
  rw [Nat.mod_eq_of_lt hv]
  exact lzcntAux_add_halvings 32 v hv

/-- What `getMipMAX` computes on its defined range: `32` minus the number of halvings of
`(cols+1)/2`. -/
theorem getMipMAX_eq (cols : Int) (h0 : 0 ≤ cols) (h1 : cols + 1 < 2 ^ 31) :
    getMipMAX cols = 32 - (halvings ((cols + 1) / 2).toNat : Int) := by
  unfold getMipMAX toUnsigned
  rw [Int.tdiv_eq_ediv (by omega) (by norm_num)]
  have e : ((cols + 1) / 2 % 2 ^ 32) = (cols + 1) / 2 := by
    apply Int.emod_eq_of_lt <;> omega
  rw [e]
  have := lzcnt_add_halvings ((cols + 1) / 2).toNat (by omega)
  omega

/-- On its defined range `getMipMAX` is non-increasing in the width. -/
theorem getMipMAX_antitone (w1 w2 : Int) (h0 : 0 ≤ w1) (h : w1 ≤ w2) (h2 : w2 + 1 < 2 ^ 31) :
    getMipMAX w2 ≤ getMipMAX w1 := by
  rw [getMipMAX_eq w1 h0 (by omega), getMipMAX_eq w2 (by omega) h2]
  have : halvings ((w1 + 1) / 2).toNat ≤ halvings ((w2 + 1) / 2).toNat :=
    halvings_mono (by omega)
  omega

/-- A level far beyond the strip: for a 1023 by 512 source the rectangle of level 40 is
the empty rectangle at the right edge. -/
theorem mipRect_1023 : mipRect 1023 512 40 = { x := 1023, y := 0, width := 0, height := 0 } := by
  decide

/-! ## The mip strip: `getMipMAX` and `getMipROI` -/

/-- C4 (evaluation of the code at the failing input). For the width 256 the strip width
`(256+1)/2 = 128` can be halved 8 times before it is zero, and `getMipMAX` returns 24,
the number of leading zero bits of 128, not 8. -/
theorem getMipMAX_256 : getMipMAX 256 = 24 ∧ halvings ((256 + 1) / 2) = 8 := by
  refine ⟨by decide, by simp [halvings]⟩

/-- C5 (evaluation of the code at the failing input). The widths 1 and 3 satisfy
`1 <= 3`, and `getMipMAX` returns 31 for the width 1 and 30 for the width 3: the result
decreases where the width grows. -/
theorem getMipMAX_not_monotone : (1 : Int) ≤ 3 ∧ getMipMAX 3 < getMipMAX 1 := by decide

/-- With `cx > 0` and at least three tests of the loop condition, the loop of `doDFT`
runs its body exactly twice, for `i = 0` and `i = cx`, and is left at `i = 2 cx`. -/
theorem recenterLoop_two (fuel cx cy : Nat) (dest : Mat) (hcx : 0 < cx) :
    recenterLoop (fuel + 3) cx cy 0 dest
      = some (swapQuadrant (swapQuadrant dest cx cy 0) cx cy cx) := by
  have h1 : (0 : Nat) ≤ cx := Nat.zero_le _
  have h2 : ¬ (cx + cx ≤ cx) := by omega
  simp only [recenterLoop, h1, le_refl, if_true, Nat.zero_add, h2, if_false]

/-- With `cx = 0` the loop variable never grows and the loop is never left, whatever the
fuel. -/
theorem recenterLoop_diverges (fuel cy : Nat) (dest : Mat) :
    recenterLoop fuel 0 cy 0 dest = none := by
  induction fuel generalizing dest with
  | zero => rfl
  | succ n ih => simp only [recenterLoop, le_refl, if_true, Nat.add_zero, ih]

/-- The entries of the matrix after the two passes of the loop body: the four `cx` by
`cy` quadrants are exchanged diagonally, everything else is unchanged. -/
theorem swapQuadrant_twice_at (dest : Mat) (cx cy y x : Nat) :
    (swapQuadrant (swapQuadrant dest cx cy 0) cx cy cx).at_ y x =
      if y < cy then
        (if x < cx then dest.at_ (y + cy) (x + cx)
         else if x < cx + cx then dest.at_ (y + cy) (x - cx)
         else dest.at_ y x)
      else if y < cy + cy then
        (if x < cx then dest.at_ (y - cy) (x + cx)
         else if x < cx + cx then dest.at_ (y - cy) (x - cx)
         else dest.at_ y x)
      else dest.at_ y x := by
  simp only [swapQuadrant, Mat.copyInto, Mat.roi, Nat.xor_self, Nat.zero_xor, Int.toNat_ofNat,
    Int.toNat_zero, Nat.zero_add, Nat.zero_le, true_and, Nat.sub_zero]
  split_ifs <;> first | rfl | (exfalso; omega) | (congr 1 <;> omega)

/-- C3. When the magnitude matrix has at least 2 rows and 2 columns, `doDFT` returns
(for every fuel of at least 3 loop tests): the loop is left after its two passes, which
exchange the top-right quadrant with the bottom-left one and the top-left quadrant with
the bottom-right one, the size is unchanged, and the entry at `[rows/2][cols/2]` is the
entry that was at `[0][0]`. -/
theorem doDFT_recenter (env : Env) (src : Mat) (fuel : Nat)
    (hr : 2 ≤ (env.magnitude src).rows) (hc : 2 ≤ (env.magnitude src).cols) (hf : 3 ≤ fuel) :
    ∃ d, doDFT env fuel src = some d ∧
      d = swapQuadrant (swapQuadrant (env.magnitude src) ((env.magnitude src).cols / 2)
            ((env.magnitude src).rows / 2) 0)
            ((env.magnitude src).cols / 2) ((env.magnitude src).rows / 2)
            ((env.magnitude src).cols / 2) ∧
      d.rows = (env.magnitude src).rows ∧ d.cols = (env.magnitude src).cols ∧
      (∀ y x, y < (env.magnitude src).rows / 2 → x < (env.magnitude src).cols / 2 →
        d.at_ y (x + (env.magnitude src).cols / 2)
            = (env.magnitude src).at_ (y + (env.magnitude src).rows / 2) x ∧
        d.at_ (y + (env.magnitude src).rows / 2) x
            = (env.magnitude src).at_ y (x + (env.magnitude src).cols / 2) ∧
        d.at_ y x
            = (env.magnitude src).at_ (y + (env.magnitude src).rows / 2)
                (x + (env.magnitude src).cols / 2) ∧
        d.at_ (y + (env.magnitude src).rows / 2) (x + (env.magnitude src).cols / 2)
            = (env.magnitude src).at_ y x) ∧
      d.at_ ((env.magnitude src).rows / 2) ((env.magnitude src).cols / 2)
        = (env.magnitude src).at_ 0 0 := by
  obtain ⟨f, rfl⟩ : ∃ f, fuel = f + 3 := ⟨fuel - 3, by omega⟩
  refine ⟨_, recenterLoop_two f _ _ _ (by omega), rfl, rfl, rfl, ?_, ?_⟩
  · intro y x hy hx
    simp only [swapQuadrant_twice_at]
    refine ⟨?_, ?_, ?_, ?_⟩
    · split_ifs <;> first | rfl | (exfalso; omega) | (congr 1 <;> omega)
    · split_ifs <;> first | rfl | (exfalso; omega) | (congr 1 <;> omega)
    · rw [if_pos hy, if_pos hx]
    · split_ifs <;> first | rfl | (exfalso; omega) | (congr 1 <;> omega)
  · simp only [swapQuadrant_twice_at]
    split_ifs <;> first | rfl | (exfalso; omega) | (congr 1 <;> omega)

/-- The statement of `doDFT_recenter` at a 5 by 4 sample matrix, with the identity as
magnitude transform. -/
theorem doDFT_recenter_witness :
    2 ≤ ((idEnv []).magnitude (rampImage 5 4)).rows ∧
    2 ≤ ((idEnv []).magnitude (rampImage 5 4)).cols ∧ 3 ≤ 3 ∧
    ∃ d, doDFT (idEnv []) 3 (rampImage 5 4) = some d ∧
      d = swapQuadrant (swapQuadrant ((idEnv []).magnitude (rampImage 5 4))
            (((idEnv []).magnitude (rampImage 5 4)).cols / 2)
            (((idEnv []).magnitude (rampImage 5 4)).rows / 2) 0)
            (((idEnv []).magnitude (rampImage 5 4)).cols / 2)
            (((idEnv []).magnitude (rampImage 5 4)).rows / 2)
            (((idEnv []).magnitude (rampImage 5 4)).cols / 2) ∧
      d.rows = ((idEnv []).magnitude (rampImage 5 4)).rows ∧
      d.cols = ((idEnv []).magnitude (rampImage 5 4)).cols ∧
      (∀ y x, y < ((idEnv []).magnitude (rampImage 5 4)).rows / 2 →
          x < ((idEnv []).magnitude (rampImage 5 4)).cols / 2 →
        d.at_ y (x + ((idEnv []).magnitude (rampImage 5 4)).cols / 2)
            = ((idEnv []).magnitude (rampImage 5 4)).at_
                (y + ((idEnv []).magnitude (rampImage 5 4)).rows / 2) x ∧
        d.at_ (y + ((idEnv []).magnitude (rampImage 5 4)).rows / 2) x
            = ((idEnv []).magnitude (rampImage 5 4)).at_ y
                (x + ((idEnv []).magnitude (rampImage 5 4)).cols / 2) ∧
        d.at_ y x
            = ((idEnv []).magnitude (rampImage 5 4)).at_
                (y + ((idEnv []).magnitude (rampImage 5 4)).rows / 2)
                (x + ((idEnv []).magnitude (rampImage 5 4)).cols / 2) ∧
        d.at_ (y + ((idEnv []).magnitude (rampImage 5 4)).rows / 2)
              (x + ((idEnv []).magnitude (rampImage 5 4)).cols / 2)
            = ((idEnv []).magnitude (rampImage 5 4)).at_ y x) ∧
      d.at_ (((idEnv []).magnitude (rampImage 5 4)).rows / 2)
          (((idEnv []).magnitude (rampImage 5 4)).cols / 2)
        = ((idEnv []).magnitude (rampImage 5 4)).at_ 0 0 :=
  ⟨by decide, by decide, by decide,
    doDFT_recenter (idEnv []) (rampImage 5 4) 3 (by decide) (by decide) (by decide)⟩

/-- When the magnitude matrix has fewer than 2 columns the re-centering loop of `doDFT`
is never left. -/
theorem doDFT_diverges (env : Env) (src : Mat) (fuel : Nat)
    (hc : (env.magnitude src).cols < 2) : doDFT env fuel src = none := by
  unfold doDFT recenter
  have : (env.magnitude src).cols / 2 = 0 := by omega
  rw [this]
  exact recenterLoop_diverges fuel _ _

/-! ## Lemmas on the scan of `spectrum` -/

/-- A counting loop `for i < n` that keeps an invariant `I` and adds `c i` to a measure
`F` at step `i` keeps `I` and adds the sum of the `c i`. -/
theorem foldl_range_sum {β : Type} (I : β → Prop) (F : β → ℚ) (step : β → Nat → β)
    (c : Nat → ℚ) (hI : ∀ b i, I b → I (step b i))
    (h : ∀ b i, I b → F (step b i) = F b + c i) (n : Nat) (b : β) (hb : I b) :
    I ((List.range n).foldl step b) ∧
      F ((List.range n).foldl step b) = F b + ∑ i in Finset.range n, c i := by
  induction n with
  | zero => simp [hb]
  | succ n ih =>
    rw [List.range_succ, List.foldl_append, Finset.sum_range_succ]
    simp only [List.foldl_cons, List.foldl_nil]
    refine ⟨hI _ _ ih.1, ?_⟩
    rw [h _ _ ih.1, ih.2, add_assoc]

/-- The accumulation of a pixel keeps the number of buckets. -/
theorem accumulate_length (v : ℚ) (bin : BinList) (i : Nat) :
    (accumulate v bin i).length = bin.length := by
  induction bin generalizing i with
  | nil => simp [accumulate]
  | cons b bs ih => cases i <;> simp [accumulate, ih]

/-- The accumulation of a pixel updates the bucket `bin_index`, when there is one, and
no other bucket. -/
theorem accumulate_getElem? (v : ℚ) (bin : BinList) (i j : Nat) :
    (accumulate v bin i)[j]? = if i = j then bin[j]?.map (addPixel v) else bin[j]? := by
  induction bin generalizing i j with
  | nil => simp [accumulate]
  | cons b bs ih =>
    cases i with
    | zero => cases j <;> simp [accumulate]
    | succ i => cases j <;> simp [accumulate, ih]

/-- The accumulation of a pixel adds 1 to the total weight when `bin_index` is in range,
and nothing otherwise. -/
theorem accumulate_weight_sum (v : ℚ) (bin : BinList) (i : Nat) :
    ((accumulate v bin i).map BinEntry.weight_).sum
      = (bin.map BinEntry.weight_).sum + (if i < bin.length then 1 else 0) := by
  induction bin generalizing i with
  | nil => simp [accumulate]
  | cons b bs ih =>
    cases i with
    | zero => simp [accumulate, addPixel]; ring
    | succ i => simp [accumulate, ih]; ring

/-- The scan of `spectrum` for a measure `F` of the bucket list to which every
accumulation adds `c`: the list has `binCount` buckets, and `F` ends at its value on the
initial list plus the sum of `c` over all pixels. -/
theorem spectrum_fold (F : BinList → ℚ) (c : Nat → ℚ → Nat → ℚ)
    (h : ∀ (bin : BinList) v i, F (accumulate v bin i) = F bin + c bin.length v i)
    (src : Mat) (scale : ℚ) :
    (spectrum src scale).length = binCount src.cols src.rows ∧
    F (spectrum src scale) = F (List.replicate (binCount src.cols src.rows) emptyBin) +
      ∑ y in Finset.range src.rows, ∑ x in Finset.range src.cols,
        c (binCount src.cols src.rows) (src.at_ y x * scale) (binIndex src.cols src.rows x y) := by
  have inner : ∀ (y : Nat) (b : BinList), b.length = binCount src.cols src.rows →
      ((List.range src.cols).foldl (fun bin x =>
        accumulate (src.at_ y x * scale) bin (binIndex src.cols src.rows x y)) b).length
          = binCount src.cols src.rows ∧
      F ((List.range src.cols).foldl (fun bin x =>
        accumulate (src.at_ y x * scale) bin (binIndex src.cols src.rows x y)) b)
          = F b + ∑ x in Finset.range src.cols,
            c (binCount src.cols src.rows) (src.at_ y x * scale) (binIndex src.cols src.rows x y) := by
    intro y b hb
    exact foldl_range_sum (fun bin => bin.length = binCount src.cols src.rows) F
      (fun bin x => accumulate (src.at_ y x * scale) bin (binIndex src.cols src.rows x y))
      (fun x => c (binCount src.cols src.rows) (src.at_ y x * scale) (binIndex src.cols src.rows x y))
      (fun b i hb => by simp [accumulate_length, hb])
      (fun b i hb => by rw [h, hb]) src.cols b hb
  exact foldl_range_sum (fun bin => bin.length = binCount src.cols src.rows) F
    (fun bin y => (List.range src.cols).foldl (fun bin x =>
        accumulate (src.at_ y x * scale) bin (binIndex src.cols src.rows x y)) bin)
    (fun y => ∑ x in Finset.range src.cols,
        c (binCount src.cols src.rows) (src.at_ y x * scale) (binIndex src.cols src.rows x y))
    (fun b y hb => (inner y b hb).1) (fun b y hb => (inner y b hb).2) src.rows
    (List.replicate (binCount src.cols src.rows) emptyBin) (by simp)

/-- The initial bucket list has total weight 0. -/
theorem weights_replicate (n : Nat) :
    ((List.replicate n emptyBin).map BinEntry.weight_).sum = 0 := by
  induction n with
  | zero => simp
  | succ n ih => simp [List.replicate_succ, emptyBin]

/-- The list returned by `spectrum` has `binCount` buckets. -/
theorem spectrum_length (src : Mat) (scale : ℚ) :
    (spectrum src scale).length = binCount src.cols src.rows :=
  (spectrum_fold (fun _ => 0) (fun _ _ _ => 0) (fun _ _ _ => by simp) src scale).1

/-- The total weight returned by `spectrum` is the number of pixels whose `bin_index` is
in range. -/
theorem spectrum_weight_sum (src : Mat) (scale : ℚ) :
    ((spectrum src scale).map BinEntry.weight_).sum
      = ∑ y in Finset.range src.rows, ∑ x in Finset.range src.cols,
          if binIndex src.cols src.rows x y < binCount src.cols src.rows then (1 : ℚ) else 0 := by
  have h := (spectrum_fold (fun bin => (bin.map BinEntry.weight_).sum)
    (fun len _ i => if i < len then 1 else 0)
    (fun bin v i => accumulate_weight_sum v bin i) src scale).2
  simp only [weights_replicate, zero_add] at h
  exact h

/-- The buckets of the initial list. -/
theorem getElem?_replicate_emptyBin (n j : Nat) :
    (List.replicate n emptyBin)[j]? = if j < n then some emptyBin else none := by
  by_cases h : j < n
  · simp [h, List.getElem?_replicate]
  · simp [h, List.getElem?_replicate]

/-- The weight of bucket `j` is the number of pixels with `bin_index = j`. -/
theorem spectrum_bucket_weight (src : Mat) (scale : ℚ) (j : Nat) :
    ((spectrum src scale)[j]?.map BinEntry.weight_).getD 0
      = ∑ y in Finset.range src.rows, ∑ x in Finset.range src.cols,
          if binIndex src.cols src.rows x y = j ∧ j < binCount src.cols src.rows
          then (1 : ℚ) else 0 := by
  have h := (spectrum_fold (fun bin => (bin[j]?.map BinEntry.weight_).getD 0)
    (fun len _ i => if i = j ∧ j < len then 1 else 0)
    (fun bin v i => by
      show ((accumulate v bin i)[j]?.map _).getD 0 = (bin[j]?.map _).getD 0 + (if i = j ∧ j < bin.length then _ else 0)
      rw [accumulate_getElem?]
      by_cases hij : i = j
      · by_cases hj : j < bin.length
        · simp [hij, hj, List.getElem?_eq_getElem, addPixel]
        · simp [hij, hj, List.getElem?_eq_none (not_lt.mp hj)]
      · simp [hij]) src scale).2
  rw [h, getElem?_replicate_emptyBin]
  by_cases hj : j < binCount src.cols src.rows <;> simp [hj, emptyBin]

/-- The value of bucket `j` is the sum of the scaled magnitudes of the pixels with
`bin_index = j`. -/
theorem spectrum_bucket_value (src : Mat) (scale : ℚ) (j : Nat) :
    ((spectrum src scale)[j]?.map BinEntry.value_).getD 0
      = ∑ y in Finset.range src.rows, ∑ x in Finset.range src.cols,
          if binIndex src.cols src.rows x y = j ∧ j < binCount src.cols src.rows
          then src.at_ y x * scale else 0 := by
  have h := (spectrum_fold (fun bin => (bin[j]?.map BinEntry.value_).getD 0)
    (fun len v i => if i = j ∧ j < len then v else 0)
    (fun bin v i => by
      show ((accumulate v bin i)[j]?.map _).getD 0 = (bin[j]?.map _).getD 0 + (if i = j ∧ j < bin.length then _ else 0)
      rw [accumulate_getElem?]
      by_cases hij : i = j
      · by_cases hj : j < bin.length
        · simp [hij, hj, List.getElem?_eq_getElem, addPixel]
        · simp [hij, hj, List.getElem?_eq_none (not_lt.mp hj)]
      · simp [hij]) src scale).2
  rw [h, getElem?_replicate_emptyBin]
  by_cases hj : j < binCount src.cols src.rows <;> simp [hj, emptyBin]

/-- The form of `spectrum_bucket_weight` for a bucket read from the list. -/
theorem bucket_weight_of_get (src : Mat) (scale : ℚ) (j : Nat) (b : BinEntry)
    (h : (spectrum src scale)[j]? = some b) :
    b.weight_ = ∑ y in Finset.range src.rows, ∑ x in Finset.range src.cols,
          if binIndex src.cols src.rows x y = j ∧ j < binCount src.cols src.rows
          then (1 : ℚ) else 0 := by
  rw [← spectrum_bucket_weight src scale j, h]; rfl

/-- The form of `spectrum_bucket_value` for a bucket read from the list. -/
theorem bucket_value_of_get (src : Mat) (scale : ℚ) (j : Nat) (b : BinEntry)
    (h : (spectrum src scale)[j]? = some b) :
    b.value_ = ∑ y in Finset.range src.rows, ∑ x in Finset.range src.cols,
          if binIndex src.cols src.rows x y = j ∧ j < binCount src.cols src.rows
          then src.at_ y x * scale else 0 := by
  rw [← spectrum_bucket_value src scale j, h]; rfl

/-- A bucket into which some pixel of the matrix is mapped has weight at least 1. -/
theorem bucket_weight_pos (src : Mat) (scale : ℚ) (j x y : Nat) (b : BinEntry)
    (h : (spectrum src scale)[j]? = some b) (hx : x < src.cols) (hy : y < src.rows)
    (hidx : binIndex src.cols src.rows x y = j) : 1 ≤ b.weight_ := by
  have hj : j < binCount src.cols src.rows := by
    rw [← spectrum_length src scale]
    exact (List.getElem?_eq_some.mp h).1
  rw [bucket_weight_of_get src scale j b h]
  have h1 : ∀ y' ∈ Finset.range src.rows, (0 : ℚ) ≤ ∑ x in Finset.range src.cols,
      if binIndex src.cols src.rows x y' = j ∧ j < binCount src.cols src.rows then (1 : ℚ) else 0 :=
    fun y' _ => Finset.sum_nonneg (fun x _ => by split_ifs <;> norm_num)
  have h2 : ∀ x' ∈ Finset.range src.cols, (0 : ℚ) ≤
      if binIndex src.cols src.rows x' y = j ∧ j < binCount src.cols src.rows then (1 : ℚ) else 0 :=
    fun x' _ => by split_ifs <;> norm_num
  calc (1 : ℚ) = if binIndex src.cols src.rows x y = j ∧ j < binCount src.cols src.rows
        then (1 : ℚ) else 0 := by simp [hidx, hj]
    _ ≤ ∑ x in Finset.range src.cols,
          if binIndex src.cols src.rows x y = j ∧ j < binCount src.cols src.rows then (1 : ℚ) else 0 :=
        Finset.single_le_sum h2 (Finset.mem_range.mpr hx)
    _ ≤ _ := Finset.single_le_sum h1 (Finset.mem_range.mpr hy)

/-! ## The bucket index over the reals -/

/-- The definition of `binIndex`, unfolded. -/
theorem binIndex_def (cols rows x y : Nat) :
    binIndex cols rows x y
      = Nat.sqrt (binCount cols rows * binCount cols rows * radiusSq cols rows x y) / minDim cols rows := rfl

/-- The definition of `binCount`, unfolded. -/
theorem binCount_def (cols rows : Nat) : binCount cols rows = minDim cols rows / 2 := rfl

/-- The number `radiusSq` is four times the squared distance `dx*dx + dy*dy` from the
centre. -/
theorem radiusSq_cast (cols rows x y : Nat) :
    ((radiusSq cols rows x y : Nat) : ℝ)
      = 4 * (((x : ℝ) - (cols : ℝ) / 2) * ((x : ℝ) - (cols : ℝ) / 2)
          + ((y : ℝ) - (rows : ℝ) / 2) * ((y : ℝ) - (rows : ℝ) / 2)) := by
  have h : ((radiusSq cols rows x y : Nat) : Int)
      = (2 * (x : Int) - cols) ^ 2 + (2 * (y : Int) - rows) ^ 2 := by
    unfold radiusSq
    exact Int.toNat_of_nonneg (by positivity)
  have h2 : ((radiusSq cols rows x y : Nat) : ℝ) = (((radiusSq cols rows x y : Nat) : Int) : ℝ) := by
    norm_cast
  rw [h2, h]
  push_cast
  ring

/-- The number `cl = (cx<cy) ? cx : cy` is half of `minDim`. -/
theorem minDim_cast (cols rows : Nat) :
    min ((cols : ℝ) / 2) ((rows : ℝ) / 2) = (minDim cols rows : ℝ) / 2 := by
  unfold minDim
  split_ifs with h
  · have : (cols : ℝ) ≤ rows := by exact_mod_cast h.le
    rw [min_eq_left (by linarith)]
  · have : (rows : ℝ) ≤ cols := by exact_mod_cast (not_lt.mp h)
    rw [min_eq_right (by linarith)]

/-- The normalized radius `sqrt(dx*dx + dy*dy) / cl` of `abs_norm` is
`sqrt radiusSq / minDim`. -/
theorem abs_norm_eq (cols rows x y : Nat) :
    Real.sqrt (((x : ℝ) - (cols : ℝ) / 2) * ((x : ℝ) - (cols : ℝ) / 2)
          + ((y : ℝ) - (rows : ℝ) / 2) * ((y : ℝ) - (rows : ℝ) / 2))
        / min ((cols : ℝ) / 2) ((rows : ℝ) / 2)
      = Real.sqrt (radiusSq cols rows x y) / minDim cols rows := by
  rw [minDim_cast, radiusSq_cast]
  rw [show (4:ℝ) = 2 ^ 2 by norm_num, Real.sqrt_mul (by positivity), Real.sqrt_sq (by norm_num)]
  rcases Nat.eq_zero_or_pos (minDim cols rows) with h | h
  · simp [h]
  · have : (0:ℝ) < minDim cols rows := by exact_mod_cast h
    field_simp

/-- The normalized radius is at least 1 exactly when `minDim ^ 2 <= radiusSq`. -/
theorem radius_ge_one_iff (cols rows x y : Nat) (hm : 0 < minDim cols rows) :
    1 ≤ Real.sqrt (radiusSq cols rows x y) / minDim cols rows
      ↔ minDim cols rows * minDim cols rows ≤ radiusSq cols rows x y := by
  have hm' : (0:ℝ) < minDim cols rows := by exact_mod_cast hm
  rw [le_div_iff₀ hm', one_mul, Real.le_sqrt' hm']
  constructor
  · intro h; have : ((minDim cols rows * minDim cols rows : Nat) : ℝ) ≤ radiusSq cols rows x y := by
      push_cast; nlinarith
    exact_mod_cast this
  · intro h
    have : ((minDim cols rows * minDim cols rows : Nat) : ℝ) ≤ radiusSq cols rows x y := by
      exact_mod_cast h
    push_cast at this; nlinarith

/-- A matrix that has a pixel has a positive smaller dimension. -/
theorem minDim_pos {cols rows x y : Nat} (hx : x < cols) (hy : y < rows) : 0 < minDim cols rows := by
  unfold minDim; split_ifs <;> omega

/-- In a matrix one pixel wide or high no pixel lies on the centre. -/
theorem radiusSq_ge_one_of_minDim_one {cols rows x y : Nat} (h : minDim cols rows = 1) :
    1 ≤ radiusSq cols rows x y := by
  unfold minDim at h
  unfold radiusSq
  have key : ∀ a : Int, 1 ≤ (2 * a - 1) ^ 2 := by
    intro a
    have : 2 * a - 1 ≤ -1 ∨ 1 ≤ 2 * a - 1 := by omega
    rcases this with h | h <;> nlinarith
  have hx := key x
  have hy := key y
  have px : (0:Int) ≤ (2 * (x:Int) - cols) ^ 2 := by positivity
  have py : (0:Int) ≤ (2 * (y:Int) - rows) ^ 2 := by positivity
  split_ifs at h with hc
  · subst h; push_cast; omega
  · subst h; push_cast; omega

/-- A pixel of the matrix is dropped by `spectrum` (`bin_index >= l`) exactly when
`minDim ^ 2 <= radiusSq`. -/
theorem binIndex_ge_iff {cols rows x y : Nat} (hx : x < cols) (hy : y < rows) :
    binCount cols rows ≤ binIndex cols rows x y
      ↔ minDim cols rows * minDim cols rows ≤ radiusSq cols rows x y := by
  have hm := minDim_pos hx hy
  rw [binIndex_def, Nat.le_div_iff_mul_le hm, Nat.le_sqrt]
  rcases Nat.eq_zero_or_pos (binCount cols rows) with h0 | hl
  · have h1 : minDim cols rows = 1 := by rw [binCount_def] at h0; omega
    have := radiusSq_ge_one_of_minDim_one (x := x) (y := y) h1
    simp [h0, h1, this]
  · constructor
    · intro h
      have : (binCount cols rows * binCount cols rows) * (minDim cols rows * minDim cols rows)
          ≤ (binCount cols rows * binCount cols rows) * radiusSq cols rows x y := by
        calc _ = binCount cols rows * minDim cols rows * (binCount cols rows * minDim cols rows) := by ring
          _ ≤ _ := h
      exact Nat.le_of_mul_le_mul_left this (Nat.mul_pos hl hl)
    · intro h
      calc binCount cols rows * minDim cols rows * (binCount cols rows * minDim cols rows)
          = (binCount cols rows * binCount cols rows) * (minDim cols rows * minDim cols rows) := by ring
        _ ≤ _ := Nat.mul_le_mul_left _ h

/-- A pixel of the matrix gets a bucket exactly when its normalized radius, over the
reals, is below 1. -/
theorem binIndex_lt_iff_radius (cols rows x y : Nat) (hx : x < cols) (hy : y < rows) :
    binIndex cols rows x y < binCount cols rows ↔
      Real.sqrt (((x : ℝ) - (cols : ℝ) / 2) * ((x : ℝ) - (cols : ℝ) / 2)
          + ((y : ℝ) - (rows : ℝ) / 2) * ((y : ℝ) - (rows : ℝ) / 2))
        / min ((cols : ℝ) / 2) ((rows : ℝ) / 2) < 1 := by
  rw [abs_norm_eq, ← not_le, ← not_le, binIndex_ge_iff hx hy, radius_ge_one_iff _ _ _ _ (minDim_pos hx hy)]

/-- The integer `binIndex` is the integer part of the real number
`l * (sqrt(dx*dx + dy*dy) / cl)` that `spectrum` converts to `int`. -/
theorem binIndex_eq_floor (cols rows x y : Nat) :
    binIndex cols rows x y =
      ⌊(binCount cols rows : ℝ) *
        (Real.sqrt (((x : ℝ) - (cols : ℝ) / 2) * ((x : ℝ) - (cols : ℝ) / 2)
          + ((y : ℝ) - (rows : ℝ) / 2) * ((y : ℝ) - (rows : ℝ) / 2))
        / min ((cols : ℝ) / 2) ((rows : ℝ) / 2))⌋₊ := by
  rw [abs_norm_eq, binIndex_def]
  have e : (binCount cols rows : ℝ) * (Real.sqrt (radiusSq cols rows x y) / minDim cols rows)
      = Real.sqrt ((binCount cols rows * binCount cols rows * radiusSq cols rows x y : Nat)) / minDim cols rows := by
    push_cast
    rw [Real.sqrt_mul (by positivity), Real.sqrt_mul_self (by positivity)]
    ring
  rw [e, Nat.floor_div_nat, Real.nat_floor_real_sqrt_eq_nat_sqrt]

/-- When there is a bucket at all, the pixel `[rows/2][cols/2]` is mapped to bucket 0.
-/
theorem binIndex_dc (cols rows : Nat) (hl : 0 < binCount cols rows) :
    binIndex cols rows (cols / 2) (rows / 2) = 0 := by
  rw [binIndex_def]
  apply Nat.div_eq_of_lt
  rw [Nat.sqrt_lt]
  have hd : radiusSq cols rows (cols / 2) (rows / 2) ≤ 2 := by
    unfold radiusSq
    have hx : (2 * ((cols / 2 : Nat) : Int) - cols) ^ 2 ≤ 1 := by
      have : 2 * ((cols / 2 : Nat) : Int) - cols = 0 ∨ 2 * ((cols / 2 : Nat) : Int) - cols = -1 := by
        omega
      rcases this with h | h <;> rw [h] <;> norm_num
    have hy : (2 * ((rows / 2 : Nat) : Int) - rows) ^ 2 ≤ 1 := by
      have : 2 * ((rows / 2 : Nat) : Int) - rows = 0 ∨ 2 * ((rows / 2 : Nat) : Int) - rows = -1 := by
        omega
      rcases this with h | h <;> rw [h] <;> norm_num
    omega
  have hm : 2 * binCount cols rows ≤ minDim cols rows := by
    rw [binCount_def]; omega
  calc binCount cols rows * binCount cols rows * radiusSq cols rows (cols / 2) (rows / 2)
      ≤ binCount cols rows * binCount cols rows * 2 := Nat.mul_le_mul_left _ hd
    _ < (2 * binCount cols rows) * (2 * binCount cols rows) := by nlinarith
    _ ≤ minDim cols rows * minDim cols rows := Nat.mul_le_mul hm hm

/-- When there is a bucket at all, `[rows/2][cols/2]` is a pixel of the matrix. -/
theorem binCount_le (cols rows : Nat) (hl : 0 < binCount cols rows) :
    cols / 2 < cols ∧ rows / 2 < rows := by
  rw [binCount_def] at hl
  unfold minDim at hl
  split_ifs at hl <;> omega

/-! ## The radial histogram: `spectrum` -/

/-- C2. For every magnitude matrix and every scale, the sum of `weight_` over the
buckets returned by `spectrum` is `cols * rows` minus the number of pixels `(x, y)`
whose normalized radius `sqrt((x-cx)^2 + (y-cy)^2) / cl` is at least 1, with
`cx = cols/2`, `cy = rows/2`, `cl = min(cx, cy)` over the reals; and a pixel is counted
in some bucket exactly when its normalized radius is below 1. -/
theorem spectrum_total_weight (src : Mat) (scale : ℚ) :
    ((spectrum src scale).map BinEntry.weight_).sum
        = (src.cols : ℚ) * src.rows
          - (Set.ncard {p : ℕ × ℕ | p.1 < src.cols ∧ p.2 < src.rows ∧
              1 ≤ Real.sqrt (((p.1 : ℝ) - (src.cols : ℝ) / 2) * ((p.1 : ℝ) - (src.cols : ℝ) / 2)
                    + ((p.2 : ℝ) - (src.rows : ℝ) / 2) * ((p.2 : ℝ) - (src.rows : ℝ) / 2))
                  / min ((src.cols : ℝ) / 2) ((src.rows : ℝ) / 2)} : ℚ)
      ∧ ∀ x y : ℕ, x < src.cols → y < src.rows →
          (binIndex src.cols src.rows x y < (spectrum src scale).length ↔
            Real.sqrt (((x : ℝ) - (src.cols : ℝ) / 2) * ((x : ℝ) - (src.cols : ℝ) / 2)
                    + ((y : ℝ) - (src.rows : ℝ) / 2) * ((y : ℝ) - (src.rows : ℝ) / 2))
                  / min ((src.cols : ℝ) / 2) ((src.rows : ℝ) / 2) < 1) := by
  refine ⟨?_, fun x y hx hy => by rw [spectrum_length]; exact binIndex_lt_iff_radius _ _ x y hx hy⟩
  have hset : {p : ℕ × ℕ | p.1 < src.cols ∧ p.2 < src.rows ∧
              1 ≤ Real.sqrt (((p.1 : ℝ) - (src.cols : ℝ) / 2) * ((p.1 : ℝ) - (src.cols : ℝ) / 2)
                    + ((p.2 : ℝ) - (src.rows : ℝ) / 2) * ((p.2 : ℝ) - (src.rows : ℝ) / 2))
                  / min ((src.cols : ℝ) / 2) ((src.rows : ℝ) / 2)}
      = ↑((Finset.range src.cols ×ˢ Finset.range src.rows).filter
          (fun p => ¬ binIndex src.cols src.rows p.1 p.2 < binCount src.cols src.rows)) := by
    ext p
    simp only [Set.mem_setOf_eq, Finset.coe_filter, Finset.mem_product, Finset.mem_range]
    constructor
    · rintro ⟨hx, hy, hr⟩
      refine ⟨⟨hx, hy⟩, ?_⟩
      rw [binIndex_lt_iff_radius _ _ _ _ hx hy]
      exact not_lt.mpr hr
    · rintro ⟨⟨hx, hy⟩, hr⟩
      rw [binIndex_lt_iff_radius _ _ _ _ hx hy] at hr
      exact ⟨hx, hy, not_lt.mp hr⟩
  rw [hset, Set.ncard_coe_Finset, spectrum_weight_sum]
  rw [← Finset.sum_product_right' (Finset.range src.cols) (Finset.range src.rows)
    (fun x y => if binIndex src.cols src.rows x y < binCount src.cols src.rows then (1 : ℚ) else 0)]
  rw [Finset.sum_boole]
  have hc := Finset.filter_card_add_filter_neg_card_eq_card
    (s := Finset.range src.cols ×ˢ Finset.range src.rows)
    (fun p : ℕ × ℕ => binIndex src.cols src.rows p.1 p.2 < binCount src.cols src.rows)
  have hS : (Finset.range src.cols ×ˢ Finset.range src.rows).card = src.cols * src.rows := by
    simp
  rw [hS] at hc
  have hq : ((src.cols * src.rows : ℕ) : ℚ) = (src.cols : ℚ) * src.rows := by push_cast; ring
  rw [← hq, ← hc]
  push_cast
  ring

/-- C1 (as amended). For a re-centred magnitude matrix whose only non-zero entry is the
one at `[rows/2][cols/2]`, and every scale: the list returned by `spectrum` has
`floor(min(cols, rows) / 2)` buckets; bucket 0, when there is one, has `weight_ > 0` and
`value_` equal to the scaled DC magnitude; and every bucket `i > 0` has `value_ = 0`.
Nothing is said of the `weight_` of the buckets `i > 0`, which counts the pixels of the
ring. -/
theorem spectrum_dc_only (src : Mat) (scale : ℚ)
    (hdc : ∀ y x, ¬(y = src.rows / 2 ∧ x = src.cols / 2) → src.at_ y x = 0) :
    (spectrum src scale).length = minDim src.cols src.rows / 2 ∧
    (∀ b, (spectrum src scale)[0]? = some b →
        0 < b.weight_ ∧ b.value_ = src.at_ (src.rows / 2) (src.cols / 2) * scale) ∧
    (∀ i b, 0 < i → (spectrum src scale)[i]? = some b → b.value_ = 0) := by
  refine ⟨spectrum_length src scale, ?_, ?_⟩
  · intro b hb
    have hl : 0 < binCount src.cols src.rows := by
      rw [← spectrum_length src scale]
      exact (List.getElem?_eq_some.mp hb).1
    have hin := binCount_le src.cols src.rows hl
    have hidx := binIndex_dc src.cols src.rows hl
    refine ⟨lt_of_lt_of_le one_pos
      (bucket_weight_pos src scale 0 _ _ b hb hin.1 hin.2 hidx), ?_⟩
    rw [bucket_value_of_get src scale 0 b hb]
    rw [Finset.sum_eq_single (src.rows / 2)]
    · rw [Finset.sum_eq_single (src.cols / 2)]
      · simp [hidx, hl]
      · intro x _ hx
        rw [hdc (src.rows / 2) x (fun h => hx h.2)]
        simp
      · intro h; exact absurd (Finset.mem_range.mpr hin.1) h
    · intro y _ hy
      apply Finset.sum_eq_zero
      intro x _
      rw [hdc y x (fun h => hy h.1)]
      simp
    · intro h; exact absurd (Finset.mem_range.mpr hin.2) h
  · intro i b hi hb
    have hl : 0 < binCount src.cols src.rows := by
      have : i < binCount src.cols src.rows := by
        rw [← spectrum_length src scale]
        exact (List.getElem?_eq_some.mp hb).1
      omega
    have hidx := binIndex_dc src.cols src.rows hl
    rw [bucket_value_of_get src scale i b hb]
    apply Finset.sum_eq_zero
    intro y _
    apply Finset.sum_eq_zero
    intro x _
    by_cases hp : y = src.rows / 2 ∧ x = src.cols / 2
    · rw [hp.1, hp.2, hidx]
      have : ¬ (0 = i ∧ i < binCount src.cols src.rows) := fun h => by omega
      simp [this]
    · rw [hdc y x hp]; simp

/-- The statement of `spectrum_dc_only` at the 256 by 256 matrix with the single
non-zero entry 128 at `[128][128]` and scale 1. -/
theorem spectrum_dc_only_witness :
    (∀ y x, ¬(y = (dcImage 256 128).rows / 2 ∧ x = (dcImage 256 128).cols / 2) →
        (dcImage 256 128).at_ y x = 0) ∧
    ((spectrum (dcImage 256 128) 1).length
        = minDim (dcImage 256 128).cols (dcImage 256 128).rows / 2 ∧
    (∀ b, (spectrum (dcImage 256 128) 1)[0]? = some b →
        0 < b.weight_ ∧
        b.value_ = (dcImage 256 128).at_ ((dcImage 256 128).rows / 2) ((dcImage 256 128).cols / 2) * 1) ∧
    (∀ i b, 0 < i → (spectrum (dcImage 256 128) 1)[i]? = some b → b.value_ = 0)) :=
  ⟨fun y x h => by simp only [dcImage] at h ⊢; rw [if_neg h],
   spectrum_dc_only (dcImage 256 128) 1
    (fun y x h => by simp only [dcImage] at h ⊢; rw [if_neg h])⟩

/-- C1 (counterexample). For the 256 by 256 matrix whose only non-zero entry is the one
at `[128][128]`, the list returned by `spectrum` has 128 buckets and bucket 1 has
`weight_ > 0`: the pixel `(129, 128)` is counted in it. -/
theorem spectrum_dc_weight_counterexample :
    (∀ y x, ¬(y = 128 ∧ x = 128) → (dcImage 256 128).at_ y x = 0) ∧
    (spectrum (dcImage 256 128) 1).length = 128 ∧
    ∃ b, (spectrum (dcImage 256 128) 1)[1]? = some b ∧ 0 < b.weight_ := by
  have hlen : (spectrum (dcImage 256 128) 1).length = 128 := by
    rw [spectrum_length]; decide
  refine ⟨fun y x h => by simp only [dcImage]; rw [if_neg h], hlen, ?_⟩
  have h1 : 1 < (spectrum (dcImage 256 128) 1).length := by rw [hlen]; norm_num
  refine ⟨(spectrum (dcImage 256 128) 1)[1], List.getElem?_eq_getElem h1, ?_⟩
  have hidx : binIndex 256 256 129 128 = 1 := by
    have e : binCount 256 256 * binCount 256 256 * radiusSq 256 256 129 128 = 256 * 256 := by
      decide
    rw [binIndex_def, e, Nat.sqrt_eq]
    decide
  exact lt_of_lt_of_le one_pos
    (bucket_weight_pos (dcImage 256 128) 1 1 129 128 _ (List.getElem?_eq_getElem h1)
      (by decide) (by decide) hidx)

/-- The list that `spectrum` returns for the 4 by 4 matrix with the single non-zero
entry 5 at `[2][2]` and scale 1. -/
theorem spectrum_dcImage4 :
    spectrum (dcImage 4 5) 1
      = [{ value_ := 5, weight_ := 1, min_ := 5, max_ := 5 },
         { value_ := 0, weight_ := 8, min_ := 0, max_ := FLT_MIN }] := by
  have s16 : Nat.sqrt 16 = 4 := by norm_num [Nat.sqrt, Nat.sqrt.iter]
  have s32 : Nat.sqrt 32 = 5 := by norm_num [Nat.sqrt, Nat.sqrt.iter]
  have s64 : Nat.sqrt 64 = 8 := by norm_num [Nat.sqrt, Nat.sqrt.iter]
  have s80 : Nat.sqrt 80 = 8 := by norm_num [Nat.sqrt, Nat.sqrt.iter]
  have s128 : Nat.sqrt 128 = 11 := by norm_num [Nat.sqrt, Nat.sqrt.iter]
  simp [spectrum, dcImage, binCount, minDim, radiusSq, List.range_succ, binIndex, accumulate,
    emptyBin, addPixel, s16, s32, s64, s80, s128]
  norm_num [minf, maxf, FLT_MAX, FLT_MIN]

/-- The total weight for the 4 by 4 sample: 9 of the 16 pixels are counted, the 7 pixels
of the first row and the first column are dropped. -/
theorem spectrum_dcImage4_weight :
    ((spectrum (dcImage 4 5) 1).map BinEntry.weight_).sum = 9 := by
  rw [spectrum_dcImage4]
  norm_num

/-- C8 (evaluation of the code at the failing input). For the 4 by 4 matrix with the
single non-zero entry 5 at `[2][2]` and scale 1, bucket 1 has received 8 pixels, every
pixel mapped into it has the scaled magnitude 0, its `min_` is 0, and its `max_` is
`FLT_MIN`, which is not 0. -/
theorem spectrum_max_of_zero_bucket :
    ∃ b, (spectrum (dcImage 4 5) 1)[1]? = some b ∧ b.weight_ = 8 ∧
      (∀ y x, y < 4 → x < 4 → binIndex 4 4 x y = 1 → (dcImage 4 5).at_ y x * 1 = 0) ∧
      b.min_ = 0 ∧ b.max_ = FLT_MIN ∧ b.max_ ≠ 0 := by
  refine ⟨{ value_ := 0, weight_ := 8, min_ := 0, max_ := FLT_MIN }, ?_, rfl, ?_, rfl, rfl, ?_⟩
  · rw [spectrum_dcImage4]; rfl
  · intro y x hy hx h
    have h0 : binIndex 4 4 2 2 = 0 := binIndex_dc 4 4 (by decide)
    have : ¬ (y = 2 ∧ x = 2) := by
      rintro ⟨rfl, rfl⟩
      omega
    simp only [dcImage]
    rw [if_neg this]; norm_num
  · norm_num [FLT_MIN]

/-- The result of `maxf` is at least its first argument. -/
theorem maxf_ge_left (a b : ℚ) : a ≤ maxf a b := by
  unfold maxf
  split_ifs with h
  · exact le_of_lt h
  · exact le_refl a

/-- The accumulation of a pixel keeps every `max_` at or above `FLT_MIN`. -/
theorem accumulate_max_ge (v : ℚ) (bin : BinList) (i : Nat)
    (h : ∀ b ∈ bin, FLT_MIN ≤ b.max_) : ∀ b ∈ accumulate v bin i, FLT_MIN ≤ b.max_ := by
  induction bin generalizing i with
  | nil => simp [accumulate]
  | cons c cs ih =>
    cases i with
    | zero =>
      intro b hb
      simp only [accumulate, List.mem_cons] at hb
      rcases hb with rfl | hb
      · exact le_trans (h c (List.mem_cons_self _ _)) (maxf_ge_left _ _)
      · exact h b (List.mem_cons_of_mem _ hb)
    | succ i =>
      intro b hb
      simp only [accumulate, List.mem_cons] at hb
      rcases hb with rfl | hb
      · exact h b (List.mem_cons_self _ _)
      · exact ih i (fun b hb => h b (List.mem_cons_of_mem _ hb)) b hb

/-- The constant `FLT_MIN` is positive and the `max_` of every bucket returned by
`spectrum` is at least `FLT_MIN`: a bucket whose scaled magnitudes are all below
`FLT_MIN` does not report their maximum. -/
theorem spectrum_max_ge_FLT_MIN (src : Mat) (scale : ℚ) (j : Nat) (b : BinEntry)
    (h : (spectrum src scale)[j]? = some b) : 0 < FLT_MIN ∧ FLT_MIN ≤ b.max_ := by
  refine ⟨by norm_num [FLT_MIN], ?_⟩
  have inner : ∀ (y : Nat) (bin : BinList), (∀ b ∈ bin, FLT_MIN ≤ b.max_) →
      ∀ b ∈ (List.range src.cols).foldl (fun bin x =>
        accumulate (src.at_ y x * scale) bin (binIndex src.cols src.rows x y)) bin,
        FLT_MIN ≤ b.max_ := fun y bin hb =>
    (foldl_range_sum (fun bin : BinList => ∀ b ∈ bin, FLT_MIN ≤ b.max_) (fun _ => 0)
      (fun bin x => accumulate (src.at_ y x * scale) bin (binIndex src.cols src.rows x y))
      (fun _ => 0) (fun bin x hb => accumulate_max_ge _ bin _ hb) (fun _ _ _ => by simp)
      src.cols bin hb).1
  have outer := (foldl_range_sum (fun bin : BinList => ∀ b ∈ bin, FLT_MIN ≤ b.max_) (fun _ => 0)
      (fun bin y => (List.range src.cols).foldl (fun bin x =>
        accumulate (src.at_ y x * scale) bin (binIndex src.cols src.rows x y)) bin)
      (fun _ => 0) (fun bin y hb => inner y bin hb) (fun _ _ _ => by simp)
      src.rows (List.replicate (binCount src.cols src.rows) emptyBin)
      (fun b hb => by rw [List.eq_of_mem_replicate hb]; exact le_refl _)).1
  exact outer b (List.getElem?_mem h)

/-! ## The orchestrator: `analyze` -/

/-- A loop whose every step has a result has a result. -/
theorem foldlM_isSome {α β : Type} (f : β → α → Option β) (h : ∀ s a, ∃ r, f s a = some r) :
    ∀ (l : List α) (s : β), ∃ r, l.foldlM f s = some r := by
  intro l
  induction l with
  | nil => intro s; exact ⟨s, rfl⟩
  | cons a l ih =>
    intro s
    obtain ⟨r, hr⟩ := h s a
    obtain ⟨r2, hr2⟩ := ih r
    exact ⟨r2, by simp [List.foldlM_cons, hr, hr2]⟩

/-- Without mip levels `analyze` returns 0 on a non-null image as soon as every channel
has a magnitude matrix of at least 2 columns and the fuel allows three tests of the loop
of `doDFT`. -/
theorem analyze_returns (env : Env) (fuel : Nat) (self : ImageDFT) (buf : Buffer)
    (width height : Int) (is_rgb : Bool) (src : Planes)
    (hsrc : env.clone buf height width = some src) (hf : 3 ≤ fuel)
    (hc : ∀ ch, 2 ≤ (env.magnitude (analyzeChannels env src is_rgb ch)).cols) :
    ∃ st, analyze env fuel self (some buf) width height is_rgb false = some (0, st) := by
  obtain ⟨f, rfl⟩ : ∃ f, fuel = f + 3 := ⟨fuel - 3, by omega⟩
  have hone : ∀ lv ch, ∃ b,
      analyzeOne env (f + 3) (analyzeChannels env src is_rgb) false lv ch = some b := by
    intro lv ch
    unfold analyzeOne doDFT recenter
    simp only [Bool.false_eq_true, if_false]
    rw [recenterLoop_two f _ _ _ (by have := hc ch; omega)]
    exact ⟨_, rfl⟩
  have hch : ∀ cc lv spec, ∃ r,
      channelLoop env (f + 3) (analyzeChannels env src is_rgb) false cc lv spec = some r := by
    intro cc lv spec
    unfold channelLoop
    apply foldlM_isSome
    intro s ch
    obtain ⟨b, hb⟩ := hone lv ch
    exact ⟨s ++ [b], by rw [hb]; rfl⟩
  have hlv : ∀ ml cc spec, ∃ r,
      levelLoop env (f + 3) (analyzeChannels env src is_rgb) false ml cc spec = some r := by
    intro ml cc spec
    unfold levelLoop
    apply foldlM_isSome
    intro s lv
    exact hch cc lv s
  unfold analyze
  simp only [Option.bind, hsrc]
  obtain ⟨r, hr⟩ := hlv (Int.toNat (if false = true then
      getMipMAX (analyzeChannels env src is_rgb 0).cols - 2 else 1))
    (Int.toNat (if is_rgb = true then 3 else 1)) (self.init is_rgb false).spectrum_
  rw [hr]
  exact ⟨_, rfl⟩

/-- C7. The call of `analyze` with a null pixel buffer returns the status 1, which is
not 0, and leaves `spectrum_`, `is_rgb_`, `is_mipmap_`, `mipmap_level_` and
`color_channels_` as they were before the call. -/
theorem analyze_null_buffer (env : Env) (fuel : Nat) (self : ImageDFT) (width height : Int)
    (is_rgb is_mipmap : Bool) :
    ∃ st, analyze env fuel self none width height is_rgb is_mipmap = some (1, st) ∧
      (1 : Int) ≠ 0 ∧ st.spectrum_ = self.spectrum_ ∧ st.is_rgb_ = self.is_rgb_ ∧
      st.is_mipmap_ = self.is_mipmap_ ∧ st.mipmap_level_ = self.mipmap_level_ ∧
      st.color_channels_ = self.color_channels_ :=
  ⟨self, rfl, by decide, rfl, rfl, rfl, rfl, rfl⟩

end FOURIERGRAPH
